import Mathlib

/-
Verification of the change-summarization pipeline of the `gait` CLI
(`CommitMessageGenerator` and its collaborators), as a shallow embedding.
Strings are embedded as `List Char`; the JavaScript string/array operations
used by the source (`trim`, `split`, `join`, `substring`, `indexOf`,
`lastIndexOf`, regex replacement, `Array.prototype.includes`) are embedded
as the executable functions below.  Only the ASCII part of the JavaScript
whitespace class is modelled, and `Char.toLower` stands for
`String.prototype.toLowerCase` (all inputs of interest are ASCII).
-/

namespace Gait

/-- Character 0x60 (backquote), written via its code point. -/
def btk : Char := Char.ofNat 96

/-- ASCII part of the JavaScript whitespace class used by `trim` and `\s`
(space, tab, newline, carriage return, vertical tab, form feed). -/
def isJsSpace (c : Char) : Bool :=
  c == ' ' || c == '\t' || c == '\n' || c == '\r' || c == '\x0b' || c == '\x0c'

/-- Embedding of `String.prototype.trim`: drop whitespace from both ends. -/
def jsTrim (l : List Char) : List Char :=
  (l.dropWhile isJsSpace).rdropWhile isJsSpace

/-- Embedding of `String.prototype.split(sep)` for a one-character separator
(always returns at least one piece, like the JavaScript original). -/
def jsSplit (sep : Char) : List Char → List (List Char)
  | [] => [[]]
  | c :: rest =>
    if c = sep then [] :: jsSplit sep rest
    else
      match jsSplit sep rest with
      | s :: ss => (c :: s) :: ss
      | [] => [[c]]

/-- Embedding of `Array.prototype.join(sep)` for a one-character separator. -/
def jsJoin (sep : Char) : List (List Char) → List Char
  | [] => []
  | [s] => s
  | s :: ss => s ++ sep :: jsJoin sep ss

/-- Index of the first occurrence of `c`, embedding
`String.prototype.indexOf` with `none` standing for `-1`. -/
def firstIdxOf (c : Char) : List Char → Option Nat
  | [] => none
  | x :: rest => if x = c then some 0 else (firstIdxOf c rest).map (· + 1)

/-- Result of `String.prototype.indexOf` as the JavaScript number (-1 when
the character does not occur). -/
def jsIndexOf (l : List Char) (c : Char) : Int :=
  match firstIdxOf c l with
  | none => -1
  | some i => i

/-- Index of the last `'\n'`, embedding
`String.prototype.lastIndexOf('\n')` with `none` standing for `-1`. -/
def lastNlIdx : List Char → Option Nat
  | [] => none
  | x :: rest =>
    match lastNlIdx rest with
    | some j => some (j + 1)
    | none => if x = '\n' then some 0 else none

/-- Scan to the first occurrence of `stop`: returns the run before it and
the remainder after it, or `none` when `stop` does not occur. -/
def spanUntil (stop : Char) : List Char → Option (List Char × List Char)
  | [] => none
  | c :: rest =>
    if c = stop then some ([], rest)
    else (spanUntil stop rest).map (fun p => (c :: p.1, p.2))

/-- Length bound used for termination of the scanners below. -/
def spanUntil_len : ∀ (stop : Char) (l mid r : List Char),
    spanUntil stop l = some (mid, r) → r.length < l.length := by
  intro stop l
  induction l with
  | nil => intro mid r h; simp [spanUntil] at h
  | cons c rest ih =>
    intro mid r h
    simp only [spanUntil] at h
    by_cases hc : c = stop
    · rw [if_pos hc, Option.some.injEq, Prod.mk.injEq] at h
      obtain ⟨h1, h2⟩ := h
      subst h2
      simp
    · rw [if_neg hc] at h
      cases hm : spanUntil stop rest with
      | none => rw [hm] at h; exact absurd h (by simp)
      | some p =>
        obtain ⟨m2, r2⟩ := p
        rw [hm] at h
        simp only [Option.map_some', Option.some.injEq, Prod.mk.injEq] at h
        obtain ⟨h1, h2⟩ := h
        subst h2
        have := ih m2 r2 hm
        simp only [List.length_cons]
        omega

/-- Locate the closing fence of a ```` ``` ````-block: skip to the first
backquote of the remainder and require two more right after it (this is
exactly where the regex `/```[^`]*```/` can close, since `[^`]*` cannot
cross a backquote). -/
def fenceEnd : List Char → Option (List Char)
  | [] => none
  | c :: rest =>
    if c = btk then
      if rest.take 2 = [btk, btk] then some (rest.drop 2) else none
    else fenceEnd rest

/-- Length bound used for termination of `stripFences`. -/
def fenceEnd_len : ∀ (l r : List Char), fenceEnd l = some r → r.length ≤ l.length := by
  intro l
  induction l with
  | nil => intro r h; simp [fenceEnd] at h
  | cons c rest ih =>
    intro r h
    by_cases hc : c = btk
    · by_cases h2 : rest.take 2 = [btk, btk]
      · simp [fenceEnd, hc, h2] at h
        subst h
        simp
        have : (rest.drop 2).length ≤ rest.length := by
          simp
        omega
      · simp [fenceEnd, hc, h2] at h
    · simp [fenceEnd, hc] at h
      have := ih r h
      simp
      omega

/-- Embedding of `processed.replace(/```[^`]*```/g, '')`: delete every
fenced code block, scanning left to right like the regex engine. -/
def stripFences (l : List Char) : List Char :=
  match l with
  | [] => []
  | c :: rest =>
    if c = btk ∧ rest.take 2 = [btk, btk] then
      match h : fenceEnd (rest.drop 2) with
      | some rest' => stripFences rest'
      | none => c :: stripFences rest
    else c :: stripFences rest
termination_by l.length
decreasing_by
  · have h1 := fenceEnd_len (rest.drop 2) rest' h
    have h2 : (rest.drop 2).length ≤ rest.length := by simp
    simp
    omega
  · simp
  · simp

/-- Embedding of `processed.replace(/`([^`]+)`/g, '$1')`: unwrap inline
code spans, keeping their contents. -/
def unwrapInline (l : List Char) : List Char :=
  match l with
  | [] => []
  | c :: rest =>
    if c = btk then
      match h : spanUntil btk rest with
      | some (mid, rest') =>
        if mid = [] then c :: unwrapInline rest else mid ++ unwrapInline rest'
      | none => c :: unwrapInline rest
    else c :: unwrapInline rest
termination_by l.length
decreasing_by
  · simp
  · have := spanUntil_len btk rest mid rest' h
    simp
    omega
  · simp
  · simp

/-- Embedding of `processed.replace(/\*\*([^*]+)\*\*/g, '$1')`: unwrap
bold emphasis, keeping the inner text. -/
def unwrapBold (l : List Char) : List Char :=
  match l with
  | [] => []
  | c :: rest =>
    if c = '*' ∧ rest.take 1 = ['*'] then
      match h : spanUntil '*' (rest.drop 1) with
      | some (mid, r) =>
        if mid ≠ [] ∧ r.take 1 = ['*'] then mid ++ unwrapBold (r.drop 1)
        else c :: unwrapBold rest
      | none => c :: unwrapBold rest
    else c :: unwrapBold rest
termination_by l.length
decreasing_by
  · have h1 := spanUntil_len '*' (rest.drop 1) mid r h
    have h2 : (rest.drop 1).length ≤ rest.length := by simp
    have h3 : (r.drop 1).length ≤ r.length := by simp
    simp
    omega
  · simp
  · simp
  · simp

/-- Embedding of `processed.replace(/\*([^*]+)\*/g, '$1')`: unwrap italic
emphasis, keeping the inner text. -/
def unwrapItalic (l : List Char) : List Char :=
  match l with
  | [] => []
  | c :: rest =>
    if c = '*' then
      match h : spanUntil '*' rest with
      | some (mid, rest') =>
        if mid = [] then c :: unwrapItalic rest else mid ++ unwrapItalic rest'
      | none => c :: unwrapItalic rest
    else c :: unwrapItalic rest
termination_by l.length
decreasing_by
  · simp
  · have := spanUntil_len '*' rest mid rest' h
    simp
    omega
  · simp
  · simp

/-- Embedding of `processed.replace(/ +/g, ' ')`: collapse every run of
space characters to a single space. -/
def collapseSpaces (l : List Char) : List Char :=
  match l with
  | [] => []
  | c :: rest =>
    if c = ' ' then ' ' :: collapseSpaces (rest.dropWhile (· = ' '))
    else c :: collapseSpaces rest
termination_by l.length
decreasing_by
  · have : (rest.dropWhile (· = ' ')).length ≤ rest.length :=
      (List.dropWhile_sublist _).length_le
    simp
    omega
  · simp

/-- Embedding of `processed.replace(/\n{3,}/g, '\n\n')`: collapse every run
of three or more newlines to exactly two. -/
def collapseNewlines (l : List Char) : List Char :=
  match l with
  | [] => []
  | c :: rest =>
    if c = '\n' then
      if (rest.takeWhile (· = '\n')).length + 1 ≥ 3 then
        '\n' :: '\n' :: collapseNewlines (rest.dropWhile (· = '\n'))
      else '\n' :: (rest.takeWhile (· = '\n') ++ collapseNewlines (rest.dropWhile (· = '\n')))
    else c :: collapseNewlines rest
termination_by l.length
decreasing_by
  · have : (rest.dropWhile (· = '\n')).length ≤ rest.length :=
      (List.dropWhile_sublist _).length_le
    simp
    omega
  · have : (rest.dropWhile (· = '\n')).length ≤ rest.length :=
      (List.dropWhile_sublist _).length_le
    simp
    omega
  · simp

/-- Embedding of `String.prototype.includes` (substring search). -/
def jsIncludes (hay needle : List Char) : Bool :=
  needle.isPrefixOf hay ||
    match hay with
    | [] => false
    | _ :: t => jsIncludes t needle

/-- Generation options recognized by the pipeline (`format`, `maxLength`,
`maxDiffLength`); absent fields model absent properties of the loosely
typed `options` object. -/
structure GenOptions where
  format : Option (List Char)
  maxLength : Option Nat
  maxDiffLength : Option Nat

/-- Effective first-line budget, embedding `options.maxLength || 50`
(`0` is falsy in JavaScript, hence also falls back to the default). -/
def effMaxLength (o : GenOptions) : Nat :=
  match o.maxLength with
  | none => 50
  | some n => if n = 0 then 50 else n

/-- Effective diff budget, embedding `options.maxDiffLength || 3000`. -/
def effMaxDiffLength (o : GenOptions) : Nat :=
  match o.maxDiffLength with
  | none => 3000
  | some n => if n = 0 then 3000 else n

/-- Status snapshot produced by `GitManager.getStatus` (five path lists;
`added` is simple-git's `staged`, `untracked` is its `not_added`). -/
structure Status where
  added : List (List Char)
  modified : List (List Char)
  deleted : List (List Char)
  untracked : List (List Char)
  conflicted : List (List Char)

/-- Embedding of the `hasChanges()` closure of `GitManager.getStatus`:
true iff `staged`, `modified`, `deleted` or `not_added` is non-empty
(the `conflicted` list is not consulted). -/
def hasChanges (s : Status) : Bool :=
  !s.added.isEmpty || !s.modified.isEmpty || !s.deleted.isEmpty || !s.untracked.isEmpty

/-- Status plus diff text, as returned by `GitManager.getDiffSummary`. -/
structure DiffSummary where
  status : Status
  diff : List Char

/-- Result record of `validateMessage`. -/
structure Validation where
  valid : Bool
  errors : List (List Char)
  warnings : List (List Char)
deriving DecidableEq

/-- Tag of a suggestion (`'error' | 'warning' | 'info'`). -/
inductive SuggType where
  | error
  | warning
  | info
deriving DecidableEq

/-- Advisory record produced by `getSuggestions`. -/
structure Suggestion where
  type : SuggType
  message : List Char
deriving DecidableEq

/-- Truncation marker appended by `truncateDiff`
(`'\n\n[... diff truncated ...]'`). -/
def truncMarker : List Char := "\n\n[... diff truncated ...]".toList

/-- Embedding of `CommitMessageGenerator.truncateDiff`.  The float test
`lastNewline > maxLength * 0.8` is embedded as `5 * lastNewline > 4 * maxLength`
over `Int`; for integer operands in the double-precision range the two
agree (the rounding error of `0.8` never moves the product across an
integer). -/
def truncateDiff (diff : List Char) (maxLength : Nat) : List Char :=
  if diff.length ≤ maxLength then diff
  else
    let truncated := diff.take maxLength
    let lastNewline : Int :=
      match lastNlIdx truncated with
      | none => -1
      | some j => j
    if 5 * lastNewline > 4 * (maxLength : Int) then
      truncated.take lastNewline.toNat ++ truncMarker
    else
      truncated ++ truncMarker

/-- Embedding of the first-line budget enforcement block of
`postProcessMessage` (the `if (lines[0].length > maxLength)` block): the
conventional-commit branch keeps the `type(scope):` prefix and truncates
only the description; otherwise the line is cut at the raw budget. -/
def enforceFirstLine (lines : List (List Char)) (maxLength : Nat) : List (List Char) :=
  let firstLine := lines.headD []
  if firstLine.length > maxLength then
    let colonIndex : Int := jsIndexOf firstLine ':'
    if 0 < colonIndex ∧ colonIndex < (maxLength : Int) then
      let pfx := firstLine.take (colonIndex.toNat + 1)
      let desc := jsTrim (firstLine.drop (colonIndex.toNat + 1))
      let maxDescLength : Int := (maxLength : Int) - pfx.length - 1
      if (desc.length : Int) > maxDescLength then
        (pfx ++ ' ' :: jsTrim (desc.take maxDescLength.toNat)) :: lines.tail
      else lines
    else jsTrim (firstLine.take maxLength) :: lines.tail
  else lines

/-- Embedding of `CommitMessageGenerator.postProcessMessage`: trim, strip
markdown artifacts, collapse spaces and newline runs, enforce the
first-line budget, re-join and trim. -/
def postProcessMessage (message : List Char) (o : GenOptions) : List Char :=
  let processed := jsTrim message
  let processed := stripFences processed
  let processed := unwrapInline processed
  let processed := unwrapBold processed
  let processed := unwrapItalic processed
  let processed := collapseSpaces processed
  let processed := collapseNewlines processed
  let lines := jsSplit '\n' processed
  jsTrim (jsJoin '\n' (enforceFirstLine lines (effMaxLength o)))

/-- Type tokens of the conventional-commit regex, in alternation order. -/
def convRegexTypes : List (List Char) :=
  ["feat".toList, "fix".toList, "docs".toList, "style".toList, "refactor".toList,
   "perf".toList, "test".toList, "chore".toList, "ci".toList, "build".toList,
   "revert".toList]

/-- What the regex metacharacter `.` matches (any character except a line
terminator; the rare ` `/` ` are not modelled). -/
def dotM (c : Char) : Bool := c ≠ '\n' && c ≠ '\r'

/-- Match `: .+` at the head of the list (the tail of the conventional
regex; `.+` need not reach the end of the line, one character suffices). -/
def colonDescOk : List Char → Bool
  | ':' :: ' ' :: c :: _ => dotM c
  | _ => false

/-- After `(` and one scope character: extend the scope or close it with
`)` followed by `: .+` (this searches every closing position, which is
what the backtracking `\(.+\)` achieves). -/
def scopeTailOk : List Char → Bool
  | [] => false
  | c :: rest =>
    (if c = ')' then colonDescOk rest else false) || (dotM c && scopeTailOk rest)

/-- Embedding of
`/^(feat|fix|docs|style|refactor|perf|test|chore|ci|build|revert)(\(.+\))?: .+/.test(firstLine)`. -/
def matchesConventional (l : List Char) : Bool :=
  convRegexTypes.any fun ty =>
    ty.isPrefixOf l &&
      (colonDescOk (l.drop ty.length) ||
        (match l.drop ty.length with
         | '(' :: c :: rest => dotM c && scopeTailOk rest
         | _ => false))

/-- First word inspected by the imperative-mood heuristic: strip a leading
`prefix:` token and following whitespace (`/^[^:]*:\s*/`), then take the
text before the first space. -/
def moodFirstWord (firstLine : List Char) : List Char :=
  let afterColon :=
    match firstIdxOf ':' firstLine with
    | some i => (firstLine.drop (i + 1)).dropWhile isJsSpace
    | none => firstLine
  afterColon.takeWhile (fun c => c ≠ ' ')

/-- Embedding of `/(ed|ing|s)$/i.test(firstWord)`. -/
def endsVerbLike (w : List Char) : Bool :=
  let wl := w.map Char.toLower
  "ed".toList.isSuffixOf wl || "ing".toList.isSuffixOf wl || "s".toList.isSuffixOf wl

/-- Embedding of `CommitMessageGenerator.validateMessage`. -/
def validateMessage (message : List Char) (format : List Char) : Validation :=
  let lines := jsSplit '\n' message
  let firstLine := lines.headD []
  let v0 : Validation := ⟨true, [], []⟩
  let v1 :=
    if firstLine.length > 72 then
      { v0 with valid := false,
                errors := v0.errors ++ ["First line is too long (over 72 characters)".toList] }
    else if firstLine.length > 50 then
      { v0 with warnings := v0.warnings ++ ["First line is longer than recommended 50 characters".toList] }
    else v0
  let v2 :=
    if format = "conventional".toList then
      if matchesConventional firstLine then v1
      else
        { v1 with valid := false,
                  errors := v1.errors ++ ["First line does not follow conventional commit format".toList] }
    else v1
  let v3 :=
    if endsVerbLike (moodFirstWord firstLine) then
      { v2 with warnings := v2.warnings ++
          ["Consider using imperative mood (e.g., \"add\" instead of \"added\")".toList] }
    else v2
  if lines.length > 1 ∧ lines.getD 1 [] ≠ [] then
    { v3 with warnings := v3.warnings ++
        ["Consider adding a blank line after the first line".toList] }
  else v3

/-- Source-code extensions of the missing-tests heuristic. -/
def codeExts : List (List Char) :=
  ["js".toList, "ts".toList, "py".toList, "java".toList, "go".toList,
   "rs".toList, "cpp".toList, "c".toList]

/-- Documentation extensions of the missing-docs heuristic. -/
def docExts : List (List Char) := ["md".toList, "rst".toList, "txt".toList]

/-- Embedding of `CommitMessageGenerator.getSuggestions`.  The `diff`
parameter is declared `string[]` in the source, so
`diffSummary.diff.includes('export')` is `Array.prototype.includes`,
i.e. element equality, not substring search. -/
def getSuggestions (message : List Char) (status : Status) (diff : List (List Char)) :
    List Suggestion :=
  let changed := status.added ++ status.modified
  let hasTestChanges :=
    changed.any fun f => jsIncludes f "test".toList || jsIncludes f "spec".toList
  let hasCodeChanges :=
    changed.any fun f => codeExts.any fun e => ('.' :: e).isSuffixOf f
  let s1 : List Suggestion :=
    if hasCodeChanges && !hasTestChanges then
      [⟨SuggType.warning, "Consider adding tests for your code changes".toList⟩]
    else []
  let hasDocChanges :=
    changed.any fun f =>
      (docExts.any fun e => ('.' :: e).isSuffixOf (f.map Char.toLower)) ||
        jsIncludes (f.map Char.toLower) "readme".toList
  let hasPublicAPIChanges :=
    diff.any (· = "export".toList) || diff.any (· = "public".toList)
  let s2 : List Suggestion :=
    if hasPublicAPIChanges && !hasDocChanges then
      [⟨SuggType.info, "Consider updating documentation for API changes".toList⟩]
    else []
  let s3 : List Suggestion :=
    if diff.any (· = "BREAKING".toList) || diff.any (· = "breaking".toList) ||
        !status.deleted.isEmpty then
      [⟨SuggType.warning,
        "This may be a breaking change - consider using BREAKING CHANGE footer".toList⟩]
    else []
  let validation := validateMessage message "conventional".toList
  let s4 : List Suggestion :=
    if !validation.valid then validation.errors.map (fun e => ⟨SuggType.error, e⟩) else []
  let s5 : List Suggestion :=
    if validation.warnings.length > 0 then
      validation.warnings.map (fun w => ⟨SuggType.warning, w⟩)
    else []
  s1 ++ s2 ++ s3 ++ s4 ++ s5

/-- Embedding of `CommitMessageGenerator.buildPrompt`. -/
def buildPrompt (status : Status) (diff : List Char) (o : GenOptions) : List Char :=
  let comma : List Char := ", ".toList
  let p := "Generate a commit message for the following Git changes:\n\n".toList
  let p := p ++ "Files changed:\n".toList
  let p := p ++
    (if !status.added.isEmpty then
      "- Added: ".toList ++ (List.intercalate comma status.added) ++ ['\n']
    else [])
  let p := p ++
    (if !status.modified.isEmpty then
      "- Modified: ".toList ++ (List.intercalate comma status.modified) ++ ['\n']
    else [])
  let p := p ++
    (if !status.deleted.isEmpty then
      "- Deleted: ".toList ++ (List.intercalate comma status.deleted) ++ ['\n']
    else [])
  let p := p ++
    (if !status.untracked.isEmpty then
      "- Untracked: ".toList ++ (List.intercalate comma status.untracked) ++ ['\n']
    else [])
  let p := p ++ "\nCode changes:\n".toList
  let p := p ++ truncateDiff diff (effMaxDiffLength o)
  let p := p ++ "\n\nInstructions:\n".toList
  let p := p ++
    (if o.format = some "conventional".toList then
      "- Use conventional commit format (type(scope): description)\n".toList
    else [])
  let p := p ++ "- Keep the first line under ".toList ++
    (Nat.repr (effMaxLength o)).toList ++ " characters\n".toList
  let p := p ++ "- Use present tense, imperative mood\n".toList
  p ++ "- Focus on what the change accomplishes\n".toList

/-- Embedding of `CommitMessageGenerator.generateCommitMessage`, with the
generation backend (`agent.generate`) passed as a function and the number
of backend invocations returned alongside the result. -/
def generateCommitMessage (ds : DiffSummary)
    (agentGenerate : List Char → Except (List Char) (List Char))
    (o : GenOptions) : Except (List Char) (List Char) × Nat :=
  if hasChanges ds.status = false then
    (Except.error "No changes detected in repository".toList, 0)
  else
    match agentGenerate (buildPrompt ds.status ds.diff o) with
    | Except.ok text => (Except.ok (postProcessMessage text o), 1)
    | Except.error e => (Except.error e, 1)

/-- Region where a second application of `truncateDiff` cuts again: the
first application cut at a newline (index `j` of the prefix, with
`5*j > 4*m`) that sits strictly before position `m - 1`, and the marker
pushed the result back over the budget (`m ≤ j + 25`). -/
def truncRecut (d : List Char) (m : Nat) : Bool :=
  decide (m < d.length) &&
    (match lastNlIdx (d.take m) with
     | some j => decide (4 * m < 5 * j) && decide (j + 2 ≤ m) && decide (m ≤ j + 25)
     | none => false)

/-- Input strings without markdown trigger characters and with only spaces
and newlines as whitespace (no backquote, no asterisk, no tab or other
exotic whitespace). -/
abbrev CleanChars (l : List Char) : Prop :=
  ∀ c ∈ l, c ≠ btk ∧ c ≠ '*' ∧ (isJsSpace c = true → c = ' ' ∨ c = '\n')

/-- No two adjacent spaces (the state of a string after `replace(/ +/g,' ')`). -/
def noDblSpace (l : List Char) : Prop :=
  l.Chain' (fun a b => a ≠ ' ' ∨ b ≠ ' ')

/-- Index returned by `lastNlIdx` is inside the list. -/
theorem lastNlIdx_lt_length : ∀ (l : List Char) (j : Nat), lastNlIdx l = some j → j < l.length := by
  intro l
  induction l with
  | nil => intro j h; simp [lastNlIdx] at h
  | cons x rest ih =>
    intro j h
    simp only [lastNlIdx] at h
    cases hr : lastNlIdx rest with
    | some k =>
      rw [hr] at h
      have := ih k hr
      simp only [Option.some.injEq] at h
      simp only [List.length_cons]
      omega
    | none =>
      rw [hr] at h
      by_cases hx : x = '\n'
      · rw [if_pos hx, Option.some.injEq] at h
        simp [← h]
      · rw [if_neg hx] at h
        exact absurd h (by simp)

/-- Appending a block containing a newline moves the last-newline index. -/
theorem lastNlIdx_append_some : ∀ (xs ys : List Char) (k : Nat),
    lastNlIdx ys = some k → lastNlIdx (xs ++ ys) = some (xs.length + k) := by
  intro xs ys k hk
  induction xs with
  | nil => simpa using hk
  | cons x rest ih =>
    rw [List.cons_append]
    simp only [lastNlIdx]
    rw [ih]
    show some (rest.length + k + 1) = some ((x :: rest).length + k)
    simp only [Option.some.injEq, List.length_cons]
    omega

/-- Appending a newline-free block keeps the last-newline index of the
first part. -/
theorem lastNlIdx_append_none : ∀ (xs ys : List Char),
    lastNlIdx ys = none → lastNlIdx (xs ++ ys) = lastNlIdx xs := by
  intro xs ys hy
  induction xs with
  | nil => simpa using hy
  | cons x rest ih =>
    rw [List.cons_append]
    simp only [lastNlIdx]
    rw [ih]

/-- Evaluation of `truncateDiff` in the over-budget case, with the float
comparison written over naturals. -/
theorem truncateDiff_eval (d : List Char) (m : Nat) (hm : m < d.length) :
    truncateDiff d m =
      (match lastNlIdx (d.take m) with
       | some j => if 4 * m < 5 * j then (d.take m).take j ++ truncMarker
                   else d.take m ++ truncMarker
       | none => d.take m ++ truncMarker) := by
  simp only [truncateDiff]
  rw [if_neg (by omega)]
  cases hln : lastNlIdx (d.take m) with
  | none =>
    simp only [hln]
    rw [if_neg (by omega)]
  | some j =>
    simp only [hln]
    by_cases hc : 4 * m < 5 * j
    · rw [if_pos (by exact_mod_cast hc), if_pos hc]
      have ht : ((j : Int)).toNat = j := by omega
      rw [ht]
    · rw [if_neg (by omega), if_neg hc]

/-- C3: when the status snapshot reports no changes, `generateCommitMessage`
fails with the no-changes error and the generation backend is never
invoked (the invocation counter stays at `0`). -/
theorem generateCommitMessage_noChanges (ds : DiffSummary)
    (agentGenerate : List Char → Except (List Char) (List Char)) (o : GenOptions)
    (h : hasChanges ds.status = false) :
    generateCommitMessage ds agentGenerate o =
      (Except.error "No changes detected in repository".toList, 0) := by
  unfold generateCommitMessage
  rw [if_pos h]

/-- Witness for `generateCommitMessage_noChanges` at a concrete empty status. -/
theorem generateCommitMessage_noChanges_witness :
    generateCommitMessage ⟨⟨[], [], [], [], []⟩, []⟩ (fun p => Except.ok p)
        ⟨none, none, none⟩ =
      (Except.error "No changes detected in repository".toList, 0) :=
  generateCommitMessage_noChanges _ _ _ (by decide)

/-- C10: a snapshot whose only non-empty category is `conflicted` is
treated as having no changes: `hasChanges` ignores `conflicted`, so
`generateCommitMessage` fails with the no-changes error. -/
theorem conflictedOnly_treated_as_noChanges (ds : DiffSummary)
    (agentGenerate : List Char → Except (List Char) (List Char)) (o : GenOptions)
    (h1 : ds.status.added = []) (h2 : ds.status.modified = [])
    (h3 : ds.status.deleted = []) (h4 : ds.status.untracked = []) :
    hasChanges ds.status = false ∧
    generateCommitMessage ds agentGenerate o =
      (Except.error "No changes detected in repository".toList, 0) := by
  have hc : hasChanges ds.status = false := by
    simp [hasChanges, h1, h2, h3, h4]
  refine ⟨hc, ?_⟩
  unfold generateCommitMessage
  rw [if_pos hc]

/-- Witness for `conflictedOnly_treated_as_noChanges` with one conflicted file. -/
theorem conflictedOnly_treated_as_noChanges_witness :
    hasChanges ⟨[], [], [], [], ["x.ts".toList]⟩ = false ∧
    generateCommitMessage ⟨⟨[], [], [], [], ["x.ts".toList]⟩, "d".toList⟩
        (fun p => Except.ok p) ⟨none, none, none⟩ =
      (Except.error "No changes detected in repository".toList, 0) :=
  conflictedOnly_treated_as_noChanges ⟨⟨[], [], [], [], ["x.ts".toList]⟩, "d".toList⟩
    (fun p => Except.ok p) ⟨none, none, none⟩ rfl rfl rfl rfl

/-- C7: the truncated diff never exceeds the budget plus the marker length
plus the two separating newlines. -/
theorem truncateDiff_length_bound (d : List Char) (m : Nat) (h : 1 ≤ m) :
    (truncateDiff d m).length ≤ m + ("[... diff truncated ...]".toList).length + 2 := by
  have hmark : ("[... diff truncated ...]".toList).length = 24 := by decide
  have h26 : truncMarker.length = 26 := by decide
  rw [hmark]
  simp only [truncateDiff]
  split_ifs with h1 h2
  · omega
  · simp only [List.length_append, List.length_take, h26]
    omega
  · simp only [List.length_append, List.length_take, h26]
    omega

/-- Witness for `truncateDiff_length_bound` at budget 1. -/
theorem truncateDiff_length_bound_witness :
    (truncateDiff "ab".toList 1).length ≤ 1 + ("[... diff truncated ...]".toList).length + 2 :=
  truncateDiff_length_bound _ 1 (by decide)

/-- C6 counterexample: at `d = "abcd\nxx"`, `m = 5` the last newline of the
5-character prefix sits at offset `4 = 0.8 * 5`, so the claim (cut "at
least `0.8 * maxLength`") predicts a cut at the newline, but the code's
strict comparison takes the raw-boundary branch instead. -/
theorem truncateDiff_branch_choice_cex :
    lastNlIdx ("abcd\nxx".toList.take 5) = some 4 ∧
    5 * 4 ≥ 4 * 5 ∧
    truncateDiff "abcd\nxx".toList 5 ≠ ("abcd\nxx".toList.take 5).take 4 ++ truncMarker := by
  decide

/-- C6 (amended): full branch characterization of an over-budget
truncation.  If the `m`-character prefix has its last newline at offset
`j`, the cut is at that newline exactly when the strict inequality
`j > 0.8 * m` holds (embedded as `4 * m < 5 * j`); at `j = 0.8 * m` or
below, and likewise when the prefix has no newline at all, the cut is at
the raw `maxLength` boundary.  The marker follows after a blank line in
every branch. -/
theorem truncateDiff_branch_choice (d : List Char) (m : Nat) (hlen : m < d.length) :
    truncateDiff d m =
      (match lastNlIdx (d.take m) with
       | some j => if 4 * m < 5 * j then (d.take m).take j ++ truncMarker
                   else d.take m ++ truncMarker
       | none => d.take m ++ truncMarker) :=
  truncateDiff_eval d m hlen

/-- Witness for `truncateDiff_branch_choice` at `d = "ab\ncdef"`, `m = 4`
(the prefix newline sits at offset `2 ≤ 0.8 * 4`, so the cut is at the raw
boundary). -/
theorem truncateDiff_branch_choice_witness :
    truncateDiff "ab\ncdef".toList 4 = "ab\ncdef".toList.take 4 ++ truncMarker :=
  truncateDiff_branch_choice "ab\ncdef".toList 4 (by decide)

set_option maxRecDepth 20000 in
/-- C2 counterexample: at budget 20, a diff whose 20-character prefix has
its last newline at offset 17 (strictly between `0.8 * 20 = 16` and
`20 - 1`) is not a fixed point: the second application cuts at the first
marker newline and inserts an extra newline. -/
theorem truncateDiff_idempotent_cex :
    truncateDiff (truncateDiff "aaaaaaaaaaaaaaaaa\nbbbb".toList 20) 20 ≠
      truncateDiff "aaaaaaaaaaaaaaaaa\nbbbb".toList 20 := by
  decide

set_option maxRecDepth 20000 in
/-- C2 (amended): `truncateDiff` is idempotent except in the `truncRecut`
region, i.e. except when the first application cut at a newline lying
strictly between `0.8 * m` and `m - 1` and the appended marker put the
result back over the budget; there a second application cuts at the first
marker newline and inserts an extra newline. -/
theorem truncateDiff_idempotent (d : List Char) (m : Nat)
    (h : truncRecut d m = false) :
    truncateDiff (truncateDiff d m) m = truncateDiff d m := by
  by_cases hfit : d.length ≤ m
  · have h1 : truncateDiff d m = d := by
      unfold truncateDiff
      rw [if_pos hfit]
    rw [h1, h1]
  · have hm : m < d.length := by omega
    have h26 : truncMarker.length = 26 := by decide
    have htlen : (d.take m).length = m := by
      simp only [List.length_take]
      omega
    rw [truncateDiff_eval d m hm]
    cases hln : lastNlIdx (d.take m) with
    | none =>
      rw [truncateDiff_eval _ m (by rw [List.length_append, htlen, h26]; omega)]
      rw [List.take_left' htlen]
      have hmono : lastNlIdx (d.take m) = none := hln
      simp only [hmono]
    | some j =>
      have hjlt : j < m := by
        have := lastNlIdx_lt_length _ _ hln
        omega
      by_cases hc : 4 * m < 5 * j
      · simp only [if_pos hc]
        have hjl : ((d.take m).take j).length = j := by
          simp only [List.length_take, htlen]
          omega
        by_cases hsm : j + 26 ≤ m
        · unfold truncateDiff
          rw [if_pos (by rw [List.length_append, hjl, h26]; omega)]
        · have hmle : m ≤ j + 25 := by omega
          have hj1 : j + 1 = m := by
            simp only [truncRecut, hln] at h
            rw [decide_eq_true hm, decide_eq_true hc, decide_eq_true hmle] at h
            simp only [Bool.true_and, Bool.and_true] at h
            have : ¬ (j + 2 ≤ m) := by
              intro hcon
              rw [decide_eq_true hcon] at h
              exact absurd h (by simp)
            omega
          rw [truncateDiff_eval _ m (by rw [List.length_append, hjl, h26]; omega)]
          have hone : truncMarker.take 1 = ['\n'] := by decide
          have htk : ((d.take m).take j ++ truncMarker).take m =
              (d.take m).take j ++ ['\n'] := by
            rw [List.take_append_eq_append_take, hjl,
              List.take_of_length_le (by omega : ((d.take m).take j).length ≤ m)]
            congr 1
            rw [show m - j = 1 by omega, hone]
          rw [htk]
          have hln2 : lastNlIdx ((d.take m).take j ++ ['\n']) = some j := by
            have h0 : lastNlIdx ['\n'] = some 0 := by decide
            rw [lastNlIdx_append_some _ _ 0 h0, hjl]
            simp
          simp only [hln2]
          rw [if_pos hc]
          congr 1
          exact List.take_left' hjl
      · simp only [if_neg hc]
        rw [truncateDiff_eval _ m (by rw [List.length_append, htlen, h26]; omega)]
        rw [List.take_left' htlen]
        simp only [hln]
        rw [if_neg hc]

/-- Witness for `truncateDiff_idempotent` at a diff with no newline. -/
theorem truncateDiff_idempotent_witness :
    truncateDiff (truncateDiff "abcdef".toList 3) 3 = truncateDiff "abcdef".toList 3 :=
  truncateDiff_idempotent "abcdef".toList 3 (by decide)

set_option maxRecDepth 40000 in
/-- C9: for the concrete scenario (one added file `a.ts`, a one-line diff,
conventional format, budget 50) the prompt contains the line
`- Added: a.ts` and an instruction mentioning `50 characters`. -/
theorem buildPrompt_scenario :
    ("- Added: a.ts".toList ∈
        jsSplit '\n' (buildPrompt ⟨["a.ts".toList], [], [], [], []⟩
          "+export function f()\x7b\x7d".toList ⟨some "conventional".toList, some 50, none⟩)) ∧
    jsIncludes (buildPrompt ⟨["a.ts".toList], [], [], [], []⟩
        "+export function f()\x7b\x7d".toList ⟨some "conventional".toList, some 50, none⟩)
      "50 characters".toList = true := by
  decide

/-- C8: with the declared parameter type `diff: string[]`,
`diffSummary.diff.includes('export')` is array-element equality, so a diff
array whose single element merely contains `export` as a substring yields
no info-type documentation suggestion, although the added file `a.ts` is
no documentation file.  (Substring containment is witnessed by
`jsIncludes` in the first conjunct.) -/
theorem getSuggestions_docs_membership :
    jsIncludes "a export b".toList "export".toList = true ∧
    (getSuggestions "test: x".toList ⟨["a.ts".toList], [], [], [], []⟩
        ["a export b".toList]).all (fun s => !(s.type == SuggType.info)) = true := by
  decide

/-- C4: the `valid` flag of `validateMessage` is true exactly when the
error list is empty; warnings are accumulated separately and never touch
`valid`. -/
theorem validateMessage_valid_iff_errors (m fmt : List Char) :
    (validateMessage m fmt).valid = (validateMessage m fmt).errors.isEmpty := by
  simp only [validateMessage]
  split_ifs <;> rfl

/-- C5: a first line longer than 72 characters always yields
`valid = false`; a first line of at most 50 characters that (for the
conventional format) matches the conventional pattern yields an empty
error list (both possible errors are the length error and the format
error, so no length- or format-related error is emitted). -/
theorem validateMessage_monotonicity (m fmt : List Char) :
    (((jsSplit '\n' m).headD []).length > 72 → (validateMessage m fmt).valid = false) ∧
    (((jsSplit '\n' m).headD []).length ≤ 50 →
      (fmt = "conventional".toList → matchesConventional ((jsSplit '\n' m).headD []) = true) →
      (validateMessage m fmt).errors = []) := by
  constructor
  · intro hlong
    simp only [validateMessage]
    split_ifs <;> first | rfl | (exfalso; omega)
  · intro hshort hconv
    simp only [validateMessage]
    split_ifs <;> first | rfl | (exfalso; omega) | simp_all

/-- Witness for `validateMessage_monotonicity`: a 73-character first line
is invalid, and a short conventional line produces no errors. -/
theorem validateMessage_monotonicity_witness :
    (validateMessage
        "aaaaaaaaaaaaaaaaaaaaaaaaaaaaaaaaaaaaaaaaaaaaaaaaaaaaaaaaaaaaaaaaaaaaaaaaa".toList
        "conventional".toList).valid = false ∧
    (validateMessage "feat: add parser".toList "conventional".toList).errors = [] :=
  ⟨(validateMessage_monotonicity
      "aaaaaaaaaaaaaaaaaaaaaaaaaaaaaaaaaaaaaaaaaaaaaaaaaaaaaaaaaaaaaaaaaaaaaaaaa".toList
      "conventional".toList).1 (by decide),
   (validateMessage_monotonicity "feat: add parser".toList "conventional".toList).2
      (by decide) (fun _ => by decide)⟩

/-- C1 counterexample: with budget 6 the raw message `"feats: fix\nbody"`
post-processes to `"feats: \nbody"`: the colon sits at offset 5 = budget-1,
so the conventional-format branch rebuilds the first line as the 6-character
prefix plus a space, which is 7 > 6 characters long. -/
theorem postProcessMessage_firstLine_budget_cex :
    effMaxLength ⟨none, some 6, none⟩ = 6 ∧
    ¬ (((jsSplit '\n' (postProcessMessage "feats: fix\nbody".toList
          ⟨none, some 6, none⟩)).headD []).length ≤ 6) := by
  constructor
  · rfl
  · have h : postProcessMessage "feats: fix\nbody".toList ⟨none, some 6, none⟩ =
        "feats: \nbody".toList := by
      show postProcessMessage ['f','e','a','t','s',':',' ','f','i','x','\n','b','o','d','y'] _ = _
      simp +decide [postProcessMessage, jsTrim, stripFences, unwrapInline, unwrapBold,
        unwrapItalic, collapseSpaces, collapseNewlines, jsSplit, jsJoin, enforceFirstLine,
        effMaxLength, jsIndexOf, firstIdxOf, spanUntil, fenceEnd, isJsSpace, btk,
        List.rdropWhile]
    rw [h]
    decide

/-- Alias: `takeWhile` yields an initial segment. -/
theorem twPref (p : Char → Bool) (l : List Char) : l.takeWhile p <+: l :=
  List.takeWhile_prefix p

/-- Alias: `rdropWhile` yields an initial segment. -/
theorem rdwPref (p : Char → Bool) (l : List Char) : l.rdropWhile p <+: l :=
  List.rdropWhile_prefix p l

/-- Alias: a chain restricted to an initial segment. -/
theorem chainPref {R : Char → Char → Prop} {l l₁ : List Char}
    (h : List.Chain' R l) (h' : l₁ <+: l) : List.Chain' R l₁ :=
  List.Chain'.prefix h h'

/-- Alias: a chain restricted to a terminal segment. -/
theorem chainSuff {R : Char → Char → Prop} {l l₁ : List Char}
    (h : List.Chain' R l) (h' : l₁ <:+ l) : List.Chain' R l₁ :=
  List.Chain'.suffix h h'

/-- The JavaScript split never yields an empty piece list. -/
theorem jsSplit_ne_nil (sep : Char) (l : List Char) : jsSplit sep l ≠ [] := by
  cases l with
  | nil => simp [jsSplit]
  | cons c rest =>
    simp only [jsSplit]
    split_ifs
    · simp
    · cases h : jsSplit sep rest <;> simp

/-- The first piece of the split is the run before the first separator. -/
theorem jsSplit_headD (sep : Char) (l : List Char) :
    (jsSplit sep l).headD [] = l.takeWhile (fun c => !(c == sep)) := by
  induction l with
  | nil => simp [jsSplit]
  | cons c rest ih =>
    simp only [jsSplit, List.takeWhile_cons]
    by_cases hc : c = sep
    · rw [if_pos hc]
      simp [hc]
    · rw [if_neg hc]
      have hne := jsSplit_ne_nil sep rest
      cases h : jsSplit sep rest with
      | nil => exact absurd h hne
      | cons s ss =>
        rw [h] at ih
        simp only [List.headD_cons] at ih
        simp [hc, ih]

/-- A non-empty list is its default head consed on its tail. -/
theorem eq_headD_cons (l : List (List Char)) (h : l ≠ []) :
    l = l.headD [] :: l.tail := by
  cases l with
  | nil => exact absurd rfl h
  | cons a t => rfl

/-- Non-empty initial segments share the head. -/
theorem prefix_headQ {l₁ l₂ : List Char} (h : l₁ <+: l₂) (hne : l₁ ≠ []) :
    l₁.head? = l₂.head? := by
  obtain ⟨t, rfl⟩ := h
  cases l₁ with
  | nil => exact absurd rfl hne
  | cons a r => rfl

/-- `takeWhile` can only get longer on an extension of the list. -/
theorem takeWhile_len_mono {p : Char → Bool} {l₁ l₂ : List Char} (h : l₁ <+: l₂) :
    (l₁.takeWhile p).length ≤ (l₂.takeWhile p).length := by
  obtain ⟨t, rfl⟩ := h
  induction l₁ with
  | nil => simp
  | cons c l ih =>
    rw [List.cons_append]
    simp only [List.takeWhile_cons]
    by_cases hc : p c = true
    · rw [hc]
      simpa using ih
    · rw [Bool.eq_false_iff.mpr hc]
      simp

/-- `takeWhile` runs through a block that satisfies the predicate. -/
theorem takeWhile_append_all {p : Char → Bool} {a : List Char} (b : List Char)
    (h : ∀ c ∈ a, p c = true) :
    (a ++ b).takeWhile p = a ++ b.takeWhile p := by
  induction a with
  | nil => simp
  | cons c r ih =>
    rw [List.cons_append, List.takeWhile_cons, h c (by simp)]
    show c :: List.takeWhile p (r ++ b) = c :: (r ++ List.takeWhile p b)
    rw [ih (fun c hc => h c (by simp [hc]))]

/-- The head surviving `dropWhile` fails the predicate. -/
theorem head_dropWhile_false (p : Char → Bool) (l : List Char) {c : Char}
    (h : (l.dropWhile p).head? = some c) : p c = false := by
  have := List.head?_dropWhile_not p l
  rw [h] at this
  exact this

/-- `firstIdxOf` returns an index inside the list. -/
theorem firstIdxOf_lt_length (c : Char) : ∀ (l : List Char) (i : Nat),
    firstIdxOf c l = some i → i < l.length := by
  intro l
  induction l with
  | nil => intro i h; simp [firstIdxOf] at h
  | cons x rest ih =>
    intro i h
    simp only [firstIdxOf] at h
    by_cases hx : x = c
    · rw [if_pos hx, Option.some.injEq] at h
      simp [← h]
    · rw [if_neg hx] at h
      cases hf : firstIdxOf c rest with
      | none => rw [hf] at h; exact absurd h (by simp)
      | some k =>
        rw [hf] at h
        simp only [Option.map_some', Option.some.injEq] at h
        have := ih k hf
        simp only [List.length_cons]
        omega

/-- The effective first-line budget is always positive. -/
theorem effMaxLength_pos (o : GenOptions) : 1 ≤ effMaxLength o := by
  unfold effMaxLength
  cases o.maxLength with
  | none => show 1 ≤ 50; omega
  | some n =>
    show 1 ≤ if n = 0 then 50 else n
    split_ifs with h
    · omega
    · omega

/-- A character of the trimmed string is a character of the string. -/
theorem jsTrim_subset (l : List Char) : ∀ c ∈ jsTrim l, c ∈ l := by
  intro c hc
  unfold jsTrim at hc
  have h1 := (rdwPref isJsSpace (l.dropWhile isJsSpace)).sublist.subset hc
  exact (List.dropWhile_sublist isJsSpace).subset h1

/-- Trimming only shrinks. -/
theorem jsTrim_length_le (l : List Char) : (jsTrim l).length ≤ l.length := by
  unfold jsTrim
  have h1 := (rdwPref isJsSpace (l.dropWhile isJsSpace)).length_le
  have h2 := (List.dropWhile_sublist isJsSpace (l := l)).length_le
  omega

/-- The head of a trimmed string is not whitespace. -/
theorem jsTrim_head_not_space (l : List Char) {c : Char}
    (h : (jsTrim l).head? = some c) : isJsSpace c = false := by
  unfold jsTrim at h
  have hne : (l.dropWhile isJsSpace).rdropWhile isJsSpace ≠ [] := by
    intro hnil
    rw [hnil] at h
    simp at h
  rw [prefix_headQ (rdwPref isJsSpace (l.dropWhile isJsSpace)) hne] at h
  exact head_dropWhile_false isJsSpace l h

/-- Trimming a string with a non-whitespace head keeps the head. -/
theorem jsTrim_cons_head (c : Char) (t : List Char) (h : isJsSpace c = false) :
    (jsTrim (c :: t)).head? = some c := by
  unfold jsTrim
  rw [List.dropWhile_cons, if_neg (by simp [h])]
  have hne : (c :: t).rdropWhile isJsSpace ≠ [] := by
    rw [Ne, List.rdropWhile_eq_nil_iff]
    intro hall
    have := hall c (by simp)
    rw [this] at h
    exact absurd h (by simp)
  rw [prefix_headQ (rdwPref isJsSpace (c :: t)) hne]
  rfl

/-- Dropped and kept terminal segments reassemble the list. -/
theorem rdrop_rtake (p : Char → Bool) (l : List Char) :
    l.rdropWhile p ++ l.rtakeWhile p = l := by
  simp only [List.rdropWhile, List.rtakeWhile]
  rw [← List.reverse_append, List.takeWhile_append_dropWhile, List.reverse_reverse]

/-- A run of spaces without two adjacent spaces has at most one element. -/
theorem spaces_run_le_one (a : List Char) (h1 : ∀ x ∈ a, x = ' ')
    (h2 : noDblSpace a) : a.length ≤ 1 := by
  match a with
  | [] => simp
  | [x] => simp
  | x :: y :: t =>
    exfalso
    have hx := h1 x (by simp)
    have hy := h1 y (by simp)
    simp only [noDblSpace] at h2
    have := (List.chain'_cons.mp h2).1
    rcases this with h | h
    · exact h hx
    · exact h hy

/-- A list without spaces trivially has no two adjacent spaces. -/
theorem noDbl_of_no_space (a : List Char) (h : ∀ x ∈ a, x ≠ ' ') :
    noDblSpace a := by
  induction a with
  | nil => simp [noDblSpace]
  | cons c r ih =>
    simp only [noDblSpace, List.chain'_cons']
    refine ⟨fun y _ => Or.inl (h c (by simp)), ?_⟩
    exact ih (fun x hx => h x (by simp [hx]))

/-- Padding bound: if all whitespace is plain spaces and no two spaces are
adjacent, a string is at most two characters longer than its trim (one
leading and one trailing space). -/
theorem jsTrim_pad_bound (w : List Char)
    (hsp : ∀ x ∈ w, isJsSpace x = true → x = ' ')
    (hnd : noDblSpace w) :
    w.length ≤ (jsTrim w).length + 2 := by
  have hsplit1 : w.takeWhile isJsSpace ++ w.dropWhile isJsSpace = w :=
    List.takeWhile_append_dropWhile isJsSpace w
  have ha1 : ∀ x ∈ w.takeWhile isJsSpace, x = ' ' := by
    intro x hx
    exact hsp x ((twPref isJsSpace w).sublist.subset hx) (List.mem_takeWhile_imp hx)
  have ha2 : noDblSpace (w.takeWhile isJsSpace) := chainPref hnd (twPref isJsSpace w)
  have halen : (w.takeWhile isJsSpace).length ≤ 1 :=
    spaces_run_le_one _ ha1 ha2
  have hb : noDblSpace (w.dropWhile isJsSpace) :=
    chainSuff hnd (List.dropWhile_suffix isJsSpace)
  have hsplit2 : (w.dropWhile isJsSpace).rdropWhile isJsSpace ++
      (w.dropWhile isJsSpace).rtakeWhile isJsSpace = w.dropWhile isJsSpace :=
    rdrop_rtake isJsSpace (w.dropWhile isJsSpace)
  have hd1 : ∀ x ∈ (w.dropWhile isJsSpace).rtakeWhile isJsSpace, x = ' ' := by
    intro x hx
    have hxw : x ∈ w :=
      (List.dropWhile_sublist isJsSpace).subset
        ((List.rtakeWhile_suffix isJsSpace _).sublist.subset hx)
    exact hsp x hxw (List.mem_rtakeWhile_imp hx)
  have hd2 : noDblSpace ((w.dropWhile isJsSpace).rtakeWhile isJsSpace) :=
    chainSuff hb (List.rtakeWhile_suffix isJsSpace _)
  have hdlen : ((w.dropWhile isJsSpace).rtakeWhile isJsSpace).length ≤ 1 :=
    spaces_run_le_one _ hd1 hd2
  have l1 : (w.takeWhile isJsSpace).length + (w.dropWhile isJsSpace).length = w.length := by
    conv_rhs => rw [← hsplit1]
    rw [List.length_append]
  have l2 : (jsTrim w).length +
      ((w.dropWhile isJsSpace).rtakeWhile isJsSpace).length =
      (w.dropWhile isJsSpace).length := by
    conv_rhs => rw [← hsplit2]
    rw [List.length_append]
    rfl
  omega

/-- Unfolding step of `collapseSpaces` at a space. -/
theorem collapseSpaces_cons_space (rest : List Char) :
    collapseSpaces (' ' :: rest) = ' ' :: collapseSpaces (rest.dropWhile (· = ' ')) := by
  simp [collapseSpaces]

/-- Unfolding step of `collapseSpaces` at a non-space. -/
theorem collapseSpaces_cons (c : Char) (rest : List Char) (h : c ≠ ' ') :
    collapseSpaces (c :: rest) = c :: collapseSpaces rest := by
  simp [collapseSpaces, h]

/-- `collapseSpaces` keeps the head character. -/
theorem collapseSpaces_head (l : List Char) : (collapseSpaces l).head? = l.head? := by
  cases l with
  | nil => simp [collapseSpaces]
  | cons c rest =>
    by_cases hc : c = ' '
    · subst hc
      rw [collapseSpaces_cons_space]
      rfl
    · rw [collapseSpaces_cons c rest hc]
      rfl

/-- Characters of `collapseSpaces l` come from `l`. -/
theorem collapseSpaces_subset : ∀ l : List Char, ∀ x ∈ collapseSpaces l, x ∈ l := by
  intro l
  induction l using collapseSpaces.induct with
  | case1 => intro x hx; simp [collapseSpaces] at hx
  | case2 rest ih =>
    intro x hx
    rw [collapseSpaces_cons_space] at hx
    rcases List.mem_cons.mp hx with h | h
    · simp [h]
    · have h2 : x ∈ rest := (List.dropWhile_sublist _).subset (ih x h)
      simp [h2]
  | case3 c rest hc ih =>
    intro x hx
    rw [collapseSpaces_cons c rest hc] at hx
    rcases List.mem_cons.mp hx with h | h
    · simp [h]
    · simp [ih x h]

/-- After `collapseSpaces` no two spaces are adjacent. -/
theorem collapseSpaces_noDbl : ∀ l : List Char, noDblSpace (collapseSpaces l) := by
  intro l
  induction l using collapseSpaces.induct with
  | case1 => simp [collapseSpaces, noDblSpace]
  | case2 rest ih =>
    rw [collapseSpaces_cons_space]
    simp only [noDblSpace] at ih ⊢
    rw [List.chain'_cons']
    refine ⟨?_, ih⟩
    intro y hy
    rw [collapseSpaces_head] at hy
    right
    intro hy'
    have hfalse := head_dropWhile_false (fun x => decide (x = ' ')) rest hy
    rw [hy'] at hfalse
    simp at hfalse
  | case3 c rest hc ih =>
    rw [collapseSpaces_cons c rest hc]
    simp only [noDblSpace] at ih ⊢
    rw [List.chain'_cons']
    exact ⟨fun y _ => Or.inl hc, ih⟩

/-- Unfolding step of `collapseNewlines` at a long newline run. -/
theorem collapseNewlines_cons_nl_big (rest : List Char)
    (h : (rest.takeWhile (· = '\n')).length + 1 ≥ 3) :
    collapseNewlines ('\n' :: rest) =
      '\n' :: '\n' :: collapseNewlines (rest.dropWhile (· = '\n')) := by
  simp [collapseNewlines, h]

/-- Unfolding step of `collapseNewlines` at a short newline run. -/
theorem collapseNewlines_cons_nl_small (rest : List Char)
    (h : ¬ ((rest.takeWhile (· = '\n')).length + 1 ≥ 3)) :
    collapseNewlines ('\n' :: rest) =
      '\n' :: (rest.takeWhile (· = '\n') ++ collapseNewlines (rest.dropWhile (· = '\n'))) := by
  simp [collapseNewlines, h]

/-- Unfolding step of `collapseNewlines` at a non-newline. -/
theorem collapseNewlines_cons (c : Char) (rest : List Char) (h : c ≠ '\n') :
    collapseNewlines (c :: rest) = c :: collapseNewlines rest := by
  simp [collapseNewlines, h]

/-- `collapseNewlines` keeps the head character. -/
theorem collapseNewlines_head (l : List Char) :
    (collapseNewlines l).head? = l.head? := by
  cases l with
  | nil => simp [collapseNewlines]
  | cons c rest =>
    by_cases hc : c = '\n'
    · subst hc
      by_cases hbig : (rest.takeWhile (· = '\n')).length + 1 ≥ 3
      · rw [collapseNewlines_cons_nl_big rest hbig]
        rfl
      · rw [collapseNewlines_cons_nl_small rest hbig]
        rfl
    · rw [collapseNewlines_cons c rest hc]
      rfl

/-- Characters of `collapseNewlines l` come from `l`. -/
theorem collapseNewlines_subset : ∀ l : List Char, ∀ x ∈ collapseNewlines l, x ∈ l := by
  intro l
  induction l using collapseNewlines.induct with
  | case1 => intro x hx; simp [collapseNewlines] at hx
  | case2 rest hbig ih =>
    intro x hx
    rw [collapseNewlines_cons_nl_big rest hbig] at hx
    rcases List.mem_cons.mp hx with h | h
    · simp [h]
    rcases List.mem_cons.mp h with h2 | h2
    · simp [h2]
    · have h3 : x ∈ rest := (List.dropWhile_sublist _).subset (ih x h2)
      simp [h3]
  | case3 rest hbig ih =>
    intro x hx
    rw [collapseNewlines_cons_nl_small rest hbig] at hx
    rcases List.mem_cons.mp hx with h | h
    · simp [h]
    rcases List.mem_append.mp h with h2 | h2
    · have h3 : x ∈ rest := (twPref _ rest).sublist.subset h2
      simp [h3]
    · have h3 : x ∈ rest := (List.dropWhile_sublist _).subset (ih x h2)
      simp [h3]
  | case4 c rest hc ih =>
    intro x hx
    rw [collapseNewlines_cons c rest hc] at hx
    rcases List.mem_cons.mp hx with h | h
    · simp [h]
    · simp [ih x h]

/-- `collapseNewlines` preserves the absence of adjacent spaces. -/
theorem collapseNewlines_noDbl : ∀ l : List Char,
    noDblSpace l → noDblSpace (collapseNewlines l) := by
  intro l
  induction l using collapseNewlines.induct with
  | case1 => intro _; simp [collapseNewlines, noDblSpace]
  | case2 rest hbig ih =>
    intro h
    rw [collapseNewlines_cons_nl_big rest hbig]
    have hrest : noDblSpace rest := chainSuff h (List.suffix_cons '\n' rest)
    have hdw : noDblSpace (rest.dropWhile (· = '\n')) :=
      chainSuff hrest (List.dropWhile_suffix _)
    simp only [noDblSpace] at ih ⊢
    rw [List.chain'_cons', List.chain'_cons']
    exact ⟨fun y _ => Or.inl (by decide), fun y _ => Or.inl (by decide), ih hdw⟩
  | case3 rest hbig ih =>
    intro h
    rw [collapseNewlines_cons_nl_small rest hbig]
    have hrest : noDblSpace rest := chainSuff h (List.suffix_cons '\n' rest)
    have hdw : noDblSpace (rest.dropWhile (· = '\n')) :=
      chainSuff hrest (List.dropWhile_suffix _)
    simp only [noDblSpace] at ih ⊢
    rw [List.chain'_cons', List.chain'_append]
    refine ⟨fun y _ => Or.inl (by decide), ?_, ih hdw, ?_⟩
    · have hall : ∀ x ∈ rest.takeWhile (· = '\n'), x ≠ ' ' := by
        intro x hx
        have := List.mem_takeWhile_imp hx
        simp only [decide_eq_true_eq] at this
        simp [this]
      have := noDbl_of_no_space _ hall
      simpa [noDblSpace] using this
    · intro x hx y hy
      have hx' : x ∈ rest.takeWhile (· = '\n') := List.mem_of_mem_getLast? hx
      have := List.mem_takeWhile_imp hx'
      simp only [decide_eq_true_eq] at this
      exact Or.inl (by simp [this])
  | case4 c rest hc ih =>
    intro h
    rw [collapseNewlines_cons c rest hc]
    have hrest : noDblSpace rest := chainSuff h (List.suffix_cons c rest)
    simp only [noDblSpace] at ih ⊢
    rw [List.chain'_cons']
    refine ⟨?_, ih hrest⟩
    intro y hy
    rw [collapseNewlines_head] at hy
    simp only [noDblSpace] at h
    exact (List.chain'_cons'.mp h).1 y hy

/-- On a backquote-free string the fence removal is the identity. -/
theorem stripFences_id : ∀ l : List Char, (∀ c ∈ l, c ≠ btk) → stripFences l = l := by
  intro l
  induction l using stripFences.induct with
  | case1 => intro _; simp [stripFences]
  | case2 c rest hcond rest' hfe ih =>
    intro h
    exact absurd hcond.1 (h c (by simp))
  | case3 c rest hcond hfe ih =>
    intro h
    exact absurd hcond.1 (h c (by simp))
  | case4 c rest hncond ih =>
    intro h
    have hstep : stripFences (c :: rest) = c :: stripFences rest := by
      simp only [stripFences]
      rw [if_neg hncond]
    rw [hstep, ih (fun x hx => h x (by simp [hx]))]

/-- On a backquote-free string the inline-code unwrap is the identity. -/
theorem unwrapInline_id : ∀ l : List Char, (∀ c ∈ l, c ≠ btk) → unwrapInline l = l := by
  intro l
  induction l using unwrapInline.induct with
  | case1 => intro _; simp [unwrapInline]
  | case2 rest rest' hsp ih =>
    intro h
    exact absurd rfl (h btk (by simp))
  | case3 rest mid rest' hsp hmid ih =>
    intro h
    exact absurd rfl (h btk (by simp))
  | case4 rest hsp ih =>
    intro h
    exact absurd rfl (h btk (by simp))
  | case5 c rest hc ih =>
    intro h
    have hstep : unwrapInline (c :: rest) = c :: unwrapInline rest := by
      simp only [unwrapInline]
      rw [if_neg hc]
    rw [hstep, ih (fun x hx => h x (by simp [hx]))]

/-- On an asterisk-free string the bold unwrap is the identity. -/
theorem unwrapBold_id : ∀ l : List Char, (∀ c ∈ l, c ≠ '*') → unwrapBold l = l := by
  intro l
  induction l using unwrapBold.induct with
  | case1 => intro _; simp [unwrapBold]
  | case2 c rest hcond mid rest' hsp hcl ih =>
    intro h
    exact absurd hcond.1 (h c (by simp))
  | case3 c rest hcond mid rest' hsp hcl ih =>
    intro h
    exact absurd hcond.1 (h c (by simp))
  | case4 c rest hcond hsp ih =>
    intro h
    exact absurd hcond.1 (h c (by simp))
  | case5 c rest hncond ih =>
    intro h
    have hstep : unwrapBold (c :: rest) = c :: unwrapBold rest := by
      simp only [unwrapBold]
      rw [if_neg hncond]
    rw [hstep, ih (fun x hx => h x (by simp [hx]))]

/-- On an asterisk-free string the italic unwrap is the identity. -/
theorem unwrapItalic_id : ∀ l : List Char, (∀ c ∈ l, c ≠ '*') → unwrapItalic l = l := by
  intro l
  induction l using unwrapItalic.induct with
  | case1 => intro _; simp [unwrapItalic]
  | case2 rest rest' hsp ih =>
    intro h
    exact absurd rfl (h '*' (by simp))
  | case3 rest mid rest' hsp hmid ih =>
    intro h
    exact absurd rfl (h '*' (by simp))
  | case4 rest hsp ih =>
    intro h
    exact absurd rfl (h '*' (by simp))
  | case5 c rest hc ih =>
    intro h
    have hstep : unwrapItalic (c :: rest) = c :: unwrapItalic rest := by
      simp only [unwrapItalic]
      rw [if_neg hc]
    rw [hstep, ih (fun x hx => h x (by simp [hx]))]

/-- Shape and length of the first line after the budget-enforcement block:
for a newline-free first line whose whitespace is single spaces, the
rewritten line is at most one character over the budget (exactly `L + 1`
is reached when the colon sits at offset `L - 1`, or when the excess of
the original line was surrounding whitespace). -/
theorem enforce_line_shape (x : List Char) (ts : List (List Char)) (L : Nat)
    (hL1 : 1 ≤ L)
    (hxnl : ∀ c ∈ x, c ≠ '\n')
    (hxsp : ∀ c ∈ x, isJsSpace c = true → c = ' ')
    (hxnd : noDblSpace x)
    (hxhead : ∀ c, x.head? = some c → isJsSpace c = false) :
    ∃ x', enforceFirstLine (x :: ts) L = x' :: ts ∧
      x'.length ≤ L + 1 ∧ (∀ c ∈ x', c ≠ '\n') ∧
      (x = [] → x' = []) ∧ (∀ c, x.head? = some c → x'.head? = some c) := by
  by_cases hlen : x.length > L
  case neg =>
    have heval : enforceFirstLine (x :: ts) L = x :: ts := by
      simp only [enforceFirstLine, List.headD_cons, List.tail_cons]
      rw [if_neg hlen]
    exact ⟨x, heval, by omega, hxnl, fun h => h, fun c hc => hc⟩
  case pos =>
    have hxne : x ≠ [] := by
      intro hx
      rw [hx] at hlen
      simp at hlen
    obtain ⟨c0, t0, hx0⟩ : ∃ c0 t0, x = c0 :: t0 := by
      cases x with
      | nil => exact absurd rfl hxne
      | cons a b => exact ⟨a, b, rfl⟩
    have hc0 : isJsSpace c0 = false := hxhead c0 (by rw [hx0]; rfl)
    have hpack : (jsTrim (x.take L)).length ≤ L + 1 ∧
        (∀ c ∈ jsTrim (x.take L), c ≠ '\n') ∧
        (∀ c, x.head? = some c → (jsTrim (x.take L)).head? = some c) := by
      refine ⟨?_, ?_, ?_⟩
      · have h1 := jsTrim_length_le (x.take L)
        have h2 : (x.take L).length ≤ L := by
          rw [List.length_take]
          omega
        omega
      · intro c hc
        exact hxnl c (List.mem_of_mem_take (jsTrim_subset _ c hc))
      · intro c hc
        rw [hx0] at hc
        simp only [List.head?_cons, Option.some.injEq] at hc
        subst hc
        rw [hx0]
        cases L with
        | zero => omega
        | succ k =>
          rw [List.take_succ_cons]
          exact jsTrim_cons_head c0 _ hc0
    cases hfi : firstIdxOf ':' x with
    | none =>
      have hji : jsIndexOf x ':' = -1 := by simp [jsIndexOf, hfi]
      have heval : enforceFirstLine (x :: ts) L = jsTrim (x.take L) :: ts := by
        simp only [enforceFirstLine, List.headD_cons, List.tail_cons]
        rw [if_pos hlen, hji, if_neg (fun hcon => absurd hcon.1 (by omega))]
      exact ⟨jsTrim (x.take L), heval, hpack.1, hpack.2.1,
        fun hxx => absurd hxx hxne, hpack.2.2⟩
    | some i =>
      have hji : jsIndexOf x ':' = (i : Int) := by simp [jsIndexOf, hfi]
      have hilt : i < x.length := firstIdxOf_lt_length ':' x i hfi
      by_cases hcol : 0 < (i : Int) ∧ (i : Int) < (L : Int)
      case neg =>
        have heval : enforceFirstLine (x :: ts) L = jsTrim (x.take L) :: ts := by
          simp only [enforceFirstLine, List.headD_cons, List.tail_cons]
          rw [if_pos hlen, hji, if_neg hcol]
        exact ⟨jsTrim (x.take L), heval, hpack.1, hpack.2.1,
          fun hxx => absurd hxx hxne, hpack.2.2⟩
      case pos =>
        obtain ⟨hipos, hiL⟩ := hcol
        have hipos' : 1 ≤ i := by exact_mod_cast hipos
        have hiL' : i < L := by exact_mod_cast hiL
        have htoNat : ((i : Int)).toNat = i := by omega
        have hpfxlen : (x.take (i + 1)).length = i + 1 := by
          rw [List.length_take]
          omega
        by_cases hd : ((jsTrim (x.drop (i + 1))).length : Int) >
            (L : Int) - ((x.take (i + 1)).length : Int) - 1
        · have heval : enforceFirstLine (x :: ts) L =
              (x.take (i + 1) ++ ' ' :: jsTrim ((jsTrim (x.drop (i + 1))).take
                ((L : Int) - ((x.take (i + 1)).length : Int) - 1).toNat)) :: ts := by
            simp only [enforceFirstLine, List.headD_cons, List.tail_cons]
            rw [if_pos hlen, hji, if_pos ⟨hipos, hiL⟩, htoNat, if_pos hd]
          refine ⟨_, heval, ?_, ?_, fun hxx => absurd hxx hxne, ?_⟩
          · rw [List.length_append, List.length_cons]
            have h1 := jsTrim_length_le ((jsTrim (x.drop (i + 1))).take
              ((L : Int) - ((x.take (i + 1)).length : Int) - 1).toNat)
            have h2 : ((jsTrim (x.drop (i + 1))).take
                ((L : Int) - ((x.take (i + 1)).length : Int) - 1).toNat).length ≤
                ((L : Int) - ((x.take (i + 1)).length : Int) - 1).toNat := by
              rw [List.length_take]
              omega
            omega
          · intro c hc
            rcases List.mem_append.mp hc with h | h
            · exact hxnl c (List.mem_of_mem_take h)
            rcases List.mem_cons.mp h with h2 | h2
            · rw [h2]
              decide
            · have h3 := List.mem_of_mem_take (jsTrim_subset _ c h2)
              exact hxnl c (List.mem_of_mem_drop (jsTrim_subset _ c h3))
          · intro c hc
            rw [hx0] at hc
            simp only [List.head?_cons, Option.some.injEq] at hc
            subst hc
            rw [hx0, List.take_succ_cons]
            rfl
        · have heval : enforceFirstLine (x :: ts) L = x :: ts := by
            simp only [enforceFirstLine, List.headD_cons, List.tail_cons]
            rw [if_pos hlen, hji, if_pos ⟨hipos, hiL⟩, htoNat, if_neg hd]
          refine ⟨x, heval, ?_, hxnl, fun h => h, fun c hc => hc⟩
          have hs1 : ∀ c ∈ x.drop (i + 1), isJsSpace c = true → c = ' ' :=
            fun c hc hs => hxsp c (List.mem_of_mem_drop hc) hs
          have hs2 : noDblSpace (x.drop (i + 1)) :=
            chainSuff hxnd (List.drop_suffix _ _)
          have hps := jsTrim_pad_bound (x.drop (i + 1)) hs1 hs2
          have hlendrop : (x.drop (i + 1)).length = x.length - (i + 1) :=
            List.length_drop _ _
          omega

/-- Joining the enforced lines back and trimming cannot make the first
line longer than the enforced first line. -/
theorem firstline_of_trim_join (x : List Char) (rest : List (List Char))
    (hx : ∀ c ∈ x, c ≠ '\n')
    (hnil : x = [] → rest = [])
    (hhead : ∀ c, x.head? = some c → isJsSpace c = false) :
    ((jsSplit '\n' (jsTrim (jsJoin '\n' (x :: rest)))).headD []).length ≤ x.length := by
  rw [jsSplit_headD]
  cases x with
  | nil =>
    rw [hnil rfl]
    simp [jsJoin, jsTrim]
  | cons c t =>
    have hc : isJsSpace c = false := hhead c rfl
    cases rest with
    | nil =>
      have hj : jsJoin '\n' [c :: t] = c :: t := rfl
      rw [hj]
      have h1 : (List.takeWhile (fun ch => !(ch == '\n')) (jsTrim (c :: t))).length ≤
          (jsTrim (c :: t)).length := (twPref _ _).length_le
      have h2 := jsTrim_length_le (c :: t)
      omega
    | cons r rs =>
      have hj : jsJoin '\n' ((c :: t) :: r :: rs) =
          (c :: t) ++ '\n' :: jsJoin '\n' (r :: rs) := rfl
      rw [hj]
      have hdw : ((c :: t) ++ '\n' :: jsJoin '\n' (r :: rs)).dropWhile isJsSpace =
          (c :: t) ++ '\n' :: jsJoin '\n' (r :: rs) := by
        rw [List.cons_append, List.dropWhile_cons, if_neg (by simp [hc])]
      have htrim : jsTrim ((c :: t) ++ '\n' :: jsJoin '\n' (r :: rs)) =
          ((c :: t) ++ '\n' :: jsJoin '\n' (r :: rs)).rdropWhile isJsSpace := by
        unfold jsTrim
        rw [hdw]
      rw [htrim]
      have hm := takeWhile_len_mono (p := fun ch => !(ch == '\n'))
        (rdwPref isJsSpace ((c :: t) ++ '\n' :: jsJoin '\n' (r :: rs)))
      have hall : ∀ ch ∈ c :: t, (fun ch => !(ch == '\n')) ch = true := by
        intro ch hch
        simp [hx ch hch]
      have hw := takeWhile_append_all ('\n' :: jsJoin '\n' (r :: rs)) hall
      rw [hw] at hm
      have hz : List.takeWhile (fun ch => !(ch == '\n')) ('\n' :: jsJoin '\n' (r :: rs)) =
          [] := by
        rw [List.takeWhile_cons]
        simp
      rw [hz, List.append_nil] at hm
      exact hm

/-- C1 (amended): for raw text without markdown trigger characters whose
whitespace is only spaces and newlines, the first line of the
post-processed message is at most one character over the effective budget
(the bound `L + 1` is tight, see the counterexample). -/
theorem postProcessMessage_firstLine_budget (raw : List Char) (o : GenOptions)
    (h : CleanChars raw) :
    ((jsSplit '\n' (postProcessMessage raw o)).headD []).length ≤ effMaxLength o + 1 := by
  have hL1 : 1 ≤ effMaxLength o := effMaxLength_pos o
  have hmem0 : ∀ c ∈ jsTrim raw, c ∈ raw := jsTrim_subset raw
  have hid1 : stripFences (jsTrim raw) = jsTrim raw :=
    stripFences_id _ (fun c hc => (h c (hmem0 c hc)).1)
  have hid2 : unwrapInline (jsTrim raw) = jsTrim raw :=
    unwrapInline_id _ (fun c hc => (h c (hmem0 c hc)).1)
  have hid3 : unwrapBold (jsTrim raw) = jsTrim raw :=
    unwrapBold_id _ (fun c hc => (h c (hmem0 c hc)).2.1)
  have hid4 : unwrapItalic (jsTrim raw) = jsTrim raw :=
    unwrapItalic_id _ (fun c hc => (h c (hmem0 c hc)).2.1)
  have hpost : postProcessMessage raw o =
      jsTrim (jsJoin '\n' (enforceFirstLine
        (jsSplit '\n' (collapseNewlines (collapseSpaces (jsTrim raw))))
        (effMaxLength o))) := by
    simp only [postProcessMessage, hid1, hid2, hid3, hid4]
  rw [hpost]
  have hPmem : ∀ c ∈ collapseNewlines (collapseSpaces (jsTrim raw)), c ∈ raw := by
    intro c hc
    exact hmem0 c (collapseSpaces_subset _ c (collapseNewlines_subset _ c hc))
  have hPnd : noDblSpace (collapseNewlines (collapseSpaces (jsTrim raw))) :=
    collapseNewlines_noDbl _ (collapseSpaces_noDbl _)
  have hPhead : ∀ c, (collapseNewlines (collapseSpaces (jsTrim raw))).head? = some c →
      isJsSpace c = false := by
    intro c hc
    rw [collapseNewlines_head, collapseSpaces_head] at hc
    exact jsTrim_head_not_space raw hc
  generalize hPdef : collapseNewlines (collapseSpaces (jsTrim raw)) = P at hPmem hPnd hPhead ⊢
  have hlines : jsSplit '\n' P =
      (P.takeWhile (fun c => !(c == '\n'))) :: (jsSplit '\n' P).tail := by
    conv_lhs => rw [eq_headD_cons (jsSplit '\n' P) (jsSplit_ne_nil '\n' P)]
    rw [jsSplit_headD]
  rw [hlines]
  have hxP := twPref (fun c => !(c == '\n')) P
  have hxnl : ∀ c ∈ P.takeWhile (fun c => !(c == '\n')), c ≠ '\n' := by
    intro c hc
    have := List.mem_takeWhile_imp hc
    simpa using this
  have hxsp : ∀ c ∈ P.takeWhile (fun c => !(c == '\n')), isJsSpace c = true → c = ' ' := by
    intro c hc hs
    have hcr : c ∈ raw := hPmem c (hxP.sublist.subset hc)
    rcases (h c hcr).2.2 hs with h1 | h1
    · exact h1
    · exact absurd h1 (hxnl c hc)
  have hxnd : noDblSpace (P.takeWhile (fun c => !(c == '\n'))) := chainPref hPnd hxP
  have hxhead : ∀ c, (P.takeWhile (fun c => !(c == '\n'))).head? = some c →
      isJsSpace c = false := by
    intro c hc
    have hxne : P.takeWhile (fun c => !(c == '\n')) ≠ [] := by
      intro hq
      rw [hq] at hc
      simp at hc
    rw [prefix_headQ hxP hxne] at hc
    exact hPhead c hc
  obtain ⟨x', heval, hb, hnl', hnil', hhead'⟩ :=
    enforce_line_shape (P.takeWhile (fun c => !(c == '\n'))) ((jsSplit '\n' P).tail)
      (effMaxLength o) hL1 hxnl hxsp hxnd hxhead
  rw [heval]
  refine le_trans (firstline_of_trim_join x' ((jsSplit '\n' P).tail) hnl' ?_ ?_) hb
  · intro hx'
    by_cases hxe : P.takeWhile (fun c => !(c == '\n')) = []
    · have hPe : P = [] := by
        cases hP2 : P with
        | nil => rfl
        | cons pc pt =>
          have hpc := hPhead pc (by rw [hP2]; rfl)
          have hpc2 : pc ≠ '\n' := by
            intro hq
            rw [hq] at hpc
            simp [isJsSpace] at hpc
          rw [hP2, List.takeWhile_cons, if_pos (by simp [hpc2])] at hxe
          simp at hxe
      rw [hPe]
      rfl
    · obtain ⟨cx, tx, hcx⟩ : ∃ cx tx,
          P.takeWhile (fun c => !(c == '\n')) = cx :: tx := by
        cases hq : P.takeWhile (fun c => !(c == '\n')) with
        | nil => exact absurd hq hxe
        | cons a b => exact ⟨a, b, rfl⟩
      have hh := hhead' cx (by rw [hcx]; rfl)
      rw [hx'] at hh
      simp at hh
  · intro c hc
    by_cases hxe : P.takeWhile (fun c => !(c == '\n')) = []
    · rw [hnil' hxe] at hc
      simp at hc
    · obtain ⟨cx, tx, hcx⟩ : ∃ cx tx,
          P.takeWhile (fun c => !(c == '\n')) = cx :: tx := by
        cases hq : P.takeWhile (fun c => !(c == '\n')) with
        | nil => exact absurd hq hxe
        | cons a b => exact ⟨a, b, rfl⟩
      have h2 := hhead' cx (by rw [hcx]; rfl)
      rw [h2, Option.some.injEq] at hc
      subst hc
      exact hxhead cx (by rw [hcx]; rfl)

/-- Witness for `postProcessMessage_firstLine_budget` at a concrete long
conventional subject line with budget 6. -/
theorem postProcessMessage_firstLine_budget_witness :
    ((jsSplit '\n' (postProcessMessage "feat: add a new parser".toList
        ⟨none, some 6, none⟩)).headD []).length ≤ effMaxLength ⟨none, some 6, none⟩ + 1 :=
  postProcessMessage_firstLine_budget "feat: add a new parser".toList
    ⟨none, some 6, none⟩ (by decide)

end Gait
